import Mathlib

/-!
# Verification of the `Step` execution core
# (src/packages/promptable/src/steps/Step.ts)

A shallow embedding of the abstract `Step` class: JavaScript objects
(records) are association lists with JS-object update semantics, the
mutable `this` of a method call is threaded explicitly as a `Step` value,
and a thrown `Error` is the `Except.error` branch.  The class is generic
in its input/output record types, so the embedding is parametric in the
type `V` of record values (record operations never inspect values).

Side effects on the external `logger` collaborator are not part of the
functional contract and are omitted.
-/

/-- A JavaScript record (plain object): an association list from string
keys to values.  A well-formed object has pairwise distinct keys
(`List.Nodup` on the key list); operations below preserve that. -/
abbrev Rec (β : Type) : Type := List (String × β)

/-- Keys of a record, in insertion order. -/
def recKeys {β : Type} (r : Rec β) : List String := r.map Prod.fst

/-- Property read `r[k]`: the value at the first occurrence of key `k`,
or `none` when the key is absent (JS `undefined`). -/
def jsGet {β : Type} (r : Rec β) (k : String) : Option β :=
  match r with
  | [] => none
  | (k', v) :: rest => if k' = k then some v else jsGet rest k

/-- Property write `r[k] = v`: overwrite in place when the key exists
(keeping its position), otherwise append the new key at the end.  These
are the JS object-assignment semantics for string keys. -/
def jsSet {β : Type} (r : Rec β) (k : String) (v : β) : Rec β :=
  match r with
  | [] => [(k, v)]
  | (k', v') :: rest => if k' = k then (k, v) :: rest else (k', v') :: jsSet rest k v

/-- Spread merge `\x7b...a, ...b\x7d`: start from `a` and assign every
entry of `b` in iteration order, so keys of `b` shadow keys of `a`. -/
def jsSpread {β : Type} (a b : Rec β) : Rec β :=
  b.foldl (fun acc kv => jsSet acc kv.1 kv.2) a

/-- JS truthiness of the optional-chaining read `outputMap[key]` whose
value, when present, is a string: `undefined` and the empty string are
falsy, every other string is truthy. -/
def jsTruthyStr (o : Option String) : Bool :=
  match o with
  | none => false
  | some s => s ≠ ""

/-- JS truthiness of an array-valued field: an array is an object and
objects are always truthy, even when the array is empty. -/
def jsTruthyArr {β : Type} (_ : List β) : Bool := true

/-- A field of a `StepCall` record (source type `Partial<StepCall<any, any>>`):
the `inputs` and `outputs` fields hold records; any other caller-supplied
metadata field holds an arbitrary value. -/
inductive CallField (V : Type) where
  | obj : Rec V → CallField V
  | raw : V → CallField V
deriving DecidableEq, Repr

/-- One (possibly partial) call record: a JS object whose fields are
`CallField`s.  Source type `Partial<StepCall<any, any>>`. -/
abbrev StepCall (V : Type) : Type := Rec (CallField V)

/-- A zod schema, used as a capability object exposing
`parse(candidate) -> validated value | failure`.  The modelled source
never invokes `parse` (the validation calls are commented out), so the
schema is carried but unused. -/
def Schema (V : Type) : Type := Rec V → Except String (Rec V)

/-- The state of one `Step` instance: its fields in the source class.
`outputMap` is the optional partial renaming object (keys of the
pre-mapped output record to target names), `inputsSchema`/`outputsSchema`
the optionally attached zod schemas, `calls` the call history. -/
structure Step (V : Type) where
  name : String
  outputMap : Option (Rec String)
  inputsSchema : Option (Schema V)
  outputsSchema : Option (Schema V)
  calls : List (StepCall V)

/-- `inputs(schema)`: attach the input schema and `return this`. -/
def Step.inputs {V : Type} (st : Step V) (schema : Schema V) : Step V :=
  { st with inputsSchema := some schema }

/-- `outputs(schema)`: attach the output schema and `return this`. -/
def Step.outputs {V : Type} (st : Step V) (schema : Schema V) : Step V :=
  { st with outputsSchema := some schema }

/-- `recordCall(args, updatePrev)`.  Append mode pushes a copy of `args`
onto the history.  Update mode requires a non-empty history (else it
throws `Error("Cannot update last call, calls length is 0")`), then
replaces the last record by the spread merge `\x7b...prev, ...args\x7d`.
The throw happens before any mutation, so an error leaves the instance
unchanged. -/
def Step.recordCall {V : Type} (st : Step V) (args : StepCall V)
    (updatePrev : Bool) : Except String (Step V) :=
  if updatePrev then
    match st.calls.getLast? with
    | none => Except.error "Cannot update last call, calls length is 0"
    | some prev =>
        Except.ok { st with calls := st.calls.dropLast ++ [jsSpread prev args] }
  else
    Except.ok { st with calls := st.calls ++ [args] }

/-- `preprocess(inputs)`: the input-validation call is commented out in
the source, so this returns the raw input record unchanged (the logger
call is a side effect outside the functional contract). -/
def Step.preprocess {V : Type} (_ : Step V) (inputs : Rec V) : Rec V :=
  inputs

/-- `postprocess(inputs, outputs)`: the output-validation call is
commented out in the source, so this returns the spread merge
`\x7b ...inputs, ...outputs \x7d`. -/
def Step.postprocess {V : Type} (_ : Step V) (inputs outputs : Rec V) : Rec V :=
  jsSpread inputs outputs

/-- `mapOutputs(outputs)`: when no output map was declared, return the
delegated output record unchanged.  Otherwise build a fresh object and,
for each entry of the delegated output record in iteration order, write
the value under `outputMap[key]` when that read is truthy
(`if (this.outputMap[key])`), else under the original key. -/
def Step.mapOutputs {V : Type} (st : Step V) (outputs : Rec V) : Rec V :=
  match st.outputMap with
  | none => outputs
  | some m =>
      outputs.foldl
        (fun mapped kv =>
          if jsTruthyStr (jsGet m kv.1) then
            jsSet mapped ((jsGet m kv.1).getD "") kv.2
          else
            jsSet mapped kv.1 kv.2)
        []

/-- Errors surfacing from `run`: either the invariant-violation `Error`
thrown by `recordCall`, or whatever the delegated computation threw,
propagated unchanged (the delegated failure type `E` is opaque here). -/
inductive StepErr (E : Type) where
  | invariant : String → StepErr E
  | external : E → StepErr E
deriving DecidableEq, Repr

/-- `run(args)`, with the abstract `_run` supplied as the function
`compute` (it receives the effective input record; sibling-step
references are passed through untouched and are treated as captured by
`compute`).  In order: record a call holding the raw inputs, preprocess,
delegate, remap the outputs, patch the last call record with the mapped
outputs, and return the postprocessed merge.  The returned pair is
(result or propagated exception, the instance state afterwards). -/
def Step.run {V E : Type} (st : Step V) (inputsArg : Rec V)
    (compute : Rec V → Except E (Rec V)) :
    Except (StepErr E) (Rec V) × Step V :=
  match st.recordCall [("inputs", CallField.obj inputsArg)] false with
  | Except.error e => (Except.error (StepErr.invariant e), st)
  | Except.ok st1 =>
    let inputs := st.preprocess inputsArg
    match compute inputs with
    | Except.error e => (Except.error (StepErr.external e), st1)
    | Except.ok outputs =>
      let mappedOutputs := st1.mapOutputs outputs
      match st1.recordCall [("outputs", CallField.obj mappedOutputs)] true with
      | Except.error e => (Except.error (StepErr.invariant e), st1)
      | Except.ok st2 => (Except.ok (st1.postprocess inputs mappedOutputs), st2)

/-- A field of the object returned by `serialize()`: the `call` field
holds the last call record or `undefined`; the step-specific metadata
fields from `_serialize()` hold arbitrary values. -/
inductive SerField (V : Type) where
  | undef : SerField V
  | callRec : StepCall V → SerField V
  | raw : V → SerField V
deriving DecidableEq, Repr

/-- `serialize()`, with the abstract `_serialize()` metadata supplied as
`meta`.  The source guard `if (!this.calls) return \x7b\x7d` tests the
truthiness of the `calls` array itself, not its length; an array is
always truthy, so the guard never fires and `this.calls[this.calls.length - 1]`
is read even on an empty history, where it is `undefined`.  The result is
the object literal `\x7b call, ...this._serialize() \x7d`. -/
def Step.serialize {V : Type} (st : Step V) (meta : Rec (SerField V)) :
    Rec (SerField V) :=
  if ¬ jsTruthyArr st.calls then []
  else
    let call : SerField V :=
      match st.calls.getLast? with
      | some c => SerField.callRec c
      | none => SerField.undef
    jsSpread [("call", call)] meta

/-! ## Lemmas about the record operations -/

theorem jsGet_jsSet_self {β : Type} (r : Rec β) (k : String) (v : β) :
    jsGet (jsSet r k v) k = some v := by
  induction r with
  | nil => simp [jsSet, jsGet]
  | cons kv rest ih =>
      obtain ⟨k', v'⟩ := kv
      by_cases h : k' = k <;> simp [jsSet, jsGet, h, ih]

theorem jsGet_jsSet_ne {β : Type} (r : Rec β) {k k' : String} (v : β)
    (h : k' ≠ k) : jsGet (jsSet r k v) k' = jsGet r k' := by
  have h' : ¬ (k = k') := fun hk => h hk.symm
  induction r with
  | nil => simp [jsSet, jsGet, h']
  | cons kv rest ih =>
      obtain ⟨k₀, v₀⟩ := kv
      by_cases hk : k₀ = k
      · subst hk
        simp [jsSet, jsGet, h']
      · simp [jsSet, jsGet, hk, ih]

theorem jsGet_eq_none_iff {β : Type} (r : Rec β) (k : String) :
    jsGet r k = none ↔ k ∉ recKeys r := by
  induction r with
  | nil => simp [jsGet, recKeys]
  | cons kv rest ih =>
      obtain ⟨k₀, v₀⟩ := kv
      by_cases h : k₀ = k
      · subst h
        simp [jsGet, recKeys]
      · simp [jsGet, recKeys, h, Ne.symm h, ih]

theorem mem_recKeys_jsSet {β : Type} (r : Rec β) (k k' : String) (v : β) :
    k' ∈ recKeys (jsSet r k v) ↔ k' ∈ recKeys r ∨ k' = k := by
  induction r with
  | nil => simp [jsSet, recKeys]
  | cons kv rest ih =>
      obtain ⟨k₀, v₀⟩ := kv
      by_cases h : k₀ = k <;> simp [jsSet, recKeys, h, ih] at * <;> tauto

theorem nodup_recKeys_jsSet {β : Type} (r : Rec β) (k : String) (v : β)
    (h : (recKeys r).Nodup) : (recKeys (jsSet r k v)).Nodup := by
  induction r with
  | nil => simp [jsSet, recKeys]
  | cons kv rest ih =>
      obtain ⟨k₀, v₀⟩ := kv
      simp only [recKeys, List.map_cons, List.nodup_cons] at h
      by_cases hk : k₀ = k
      · subst hk
        simpa [jsSet, recKeys] using h
      · have := ih h.2
        simp only [jsSet, hk, if_false, recKeys, List.map_cons, List.nodup_cons]
        refine ⟨fun hmem => ?_, this⟩
        rw [show (jsSet rest k v).map Prod.fst = recKeys (jsSet rest k v) from rfl,
          mem_recKeys_jsSet] at hmem
        rcases hmem with hmem | hmem
        · exact h.1 hmem
        · exact hk hmem

theorem jsSpread_nil {β : Type} (a : Rec β) : jsSpread a [] = a := rfl

theorem jsSpread_cons {β : Type} (a : Rec β) (kv : String × β) (b : Rec β) :
    jsSpread a (kv :: b) = jsSpread (jsSet a kv.1 kv.2) b := rfl

theorem jsGet_jsSpread_of_none {β : Type} (a b : Rec β) (k : String)
    (h : jsGet b k = none) : jsGet (jsSpread a b) k = jsGet a k := by
  induction b generalizing a with
  | nil => rfl
  | cons kv rest ih =>
      obtain ⟨k₀, v₀⟩ := kv
      by_cases hk : k₀ = k
      · simp [jsGet, hk] at h
      · simp only [jsGet, hk, if_false] at h
        rw [jsSpread_cons, ih _ h, jsGet_jsSet_ne _ _ (fun hkk => hk hkk.symm)]

theorem jsGet_jsSpread_of_some {β : Type} (a b : Rec β) (k : String) (v : β)
    (hb : (recKeys b).Nodup) (h : jsGet b k = some v) :
    jsGet (jsSpread a b) k = some v := by
  induction b generalizing a with
  | nil => simp [jsGet] at h
  | cons kv rest ih =>
      obtain ⟨k₀, v₀⟩ := kv
      simp only [recKeys, List.map_cons, List.nodup_cons] at hb
      by_cases hk : k₀ = k
      · subst hk
        simp [jsGet] at h
        subst h
        rw [jsSpread_cons,
          jsGet_jsSpread_of_none _ _ _ ((jsGet_eq_none_iff _ _).mpr hb.1),
          jsGet_jsSet_self]
      · simp only [jsGet, hk, if_false] at h
        rw [jsSpread_cons]
        exact ih _ hb.2 h

theorem mem_recKeys_jsSpread {β : Type} (a b : Rec β) (k : String) :
    k ∈ recKeys (jsSpread a b) ↔ k ∈ recKeys a ∨ k ∈ recKeys b := by
  induction b generalizing a with
  | nil => simp [jsSpread, recKeys]
  | cons kv rest ih =>
      obtain ⟨k₀, v₀⟩ := kv
      rw [jsSpread_cons, ih, mem_recKeys_jsSet]
      simp [recKeys]
      tauto

theorem nodup_recKeys_jsSpread {β : Type} (a b : Rec β)
    (ha : (recKeys a).Nodup) : (recKeys (jsSpread a b)).Nodup := by
  induction b generalizing a with
  | nil => exact ha
  | cons kv rest ih => exact jsSpread_cons a kv rest ▸ ih _ (nodup_recKeys_jsSet _ _ _ ha)

/-! ## A write-loop view of the remapping loop -/

/-- The remapping loop of `mapOutputs`, abstracted over the target-key
function: assign every entry of `o` in iteration order into `acc`, each
value written under the key `tgt` picks for its entry. -/
def writeAll {V : Type} (tgt : String × V → String) (o : Rec V) (acc : Rec V) : Rec V :=
  o.foldl (fun acc kv => jsSet acc (tgt kv) kv.2) acc

theorem writeAll_nil {V : Type} (tgt : String × V → String) (acc : Rec V) :
    writeAll tgt [] acc = acc := rfl

theorem writeAll_cons {V : Type} (tgt : String × V → String) (kv : String × V)
    (o : Rec V) (acc : Rec V) :
    writeAll tgt (kv :: o) acc = writeAll tgt o (jsSet acc (tgt kv) kv.2) := rfl

theorem jsGet_writeAll_not_hit {V : Type} (tgt : String × V → String) (o : Rec V)
    (acc : Rec V) (k : String) (h : ∀ kv ∈ o, tgt kv ≠ k) :
    jsGet (writeAll tgt o acc) k = jsGet acc k := by
  induction o generalizing acc with
  | nil => rfl
  | cons kv rest ih =>
      rw [writeAll_cons, ih _ (fun kv' hm => h kv' (List.mem_cons_of_mem _ hm)),
        jsGet_jsSet_ne _ _ (fun hk => h kv (List.mem_cons_self _ _) hk.symm)]

theorem jsGet_writeAll_unique {V : Type} (tgt : String × V → String) (o : Rec V)
    (acc : Rec V) (k a : String) (v : V)
    (hiff : ∀ kv ∈ o, tgt kv = k ↔ kv.1 = a)
    (hget : jsGet o a = some v) (hno : (recKeys o).Nodup) :
    jsGet (writeAll tgt o acc) k = some v := by
  induction o generalizing acc with
  | nil => simp [jsGet] at hget
  | cons kv rest ih =>
      obtain ⟨k₀, v₀⟩ := kv
      simp only [recKeys, List.map_cons, List.nodup_cons] at hno
      by_cases hk : k₀ = a
      · subst hk
        simp [jsGet] at hget
        subst hget
        have htgt : tgt (k₀, v₀) = k :=
          (hiff (k₀, v₀) (List.mem_cons_self _ _)).mpr rfl
        have hrest : ∀ kv ∈ rest, tgt kv ≠ k := by
          intro kv' hm htk
          exact hno.1 (((hiff kv' (List.mem_cons_of_mem _ hm)).mp htk) ▸
            List.mem_map_of_mem Prod.fst hm)
        rw [writeAll_cons, jsGet_writeAll_not_hit _ _ _ _ hrest, htgt, jsGet_jsSet_self]
      · simp only [jsGet, hk, if_false] at hget
        rw [writeAll_cons]
        exact ih _ (fun kv' hm => hiff kv' (List.mem_cons_of_mem _ hm)) hget hno.2

theorem nodup_recKeys_writeAll {V : Type} (tgt : String × V → String) (o : Rec V)
    (acc : Rec V) (ha : (recKeys acc).Nodup) :
    (recKeys (writeAll tgt o acc)).Nodup := by
  induction o generalizing acc with
  | nil => exact ha
  | cons kv rest ih =>
      rw [writeAll_cons]
      exact ih _ (nodup_recKeys_jsSet _ _ _ ha)

/-- `mapOutputs` with a declared output map is the write loop whose
target key is `outputMap[key]` when that read is truthy, else the
original key. -/
theorem mapOutputs_eq_writeAll {V : Type} (st : Step V) (m : Rec String) (o : Rec V)
    (hm : st.outputMap = some m) :
    st.mapOutputs o
      = writeAll (fun kv => if jsTruthyStr (jsGet m kv.1) then (jsGet m kv.1).getD "" else kv.1) o [] := by
  unfold Step.mapOutputs writeAll
  rw [hm]
  refine List.foldl_ext _ _ _ (fun acc kv _ => ?_)
  by_cases h : jsTruthyStr (jsGet m kv.1) <;> simp [h]

/-! ## Reference definitions for the remapping (for the refinement claim) -/

/-- Reference definition following the spec's words: "for every key in
the delegated output record: if the output map declares a target name for
that key, write the value under the target name; otherwise keep the
original key"; with no declared map, "return the delegated output record
unchanged". -/
def mapOutputsSpec {V : Type} (outputMap : Option (Rec String)) (outputs : Rec V) : Rec V :=
  match outputMap with
  | none => outputs
  | some m =>
      outputs.foldl
        (fun mapped kv =>
          match jsGet m kv.1 with
          | some target => jsSet mapped target kv.2
          | none => jsSet mapped kv.1 kv.2)
        []

/-- The amended reference definition: a declared target name only takes
effect when it is non-empty, because the source guards the rename with
the JS truthiness of `outputMap[key]` and the empty string is falsy. -/
def mapOutputsSpecAmended {V : Type} (outputMap : Option (Rec String)) (outputs : Rec V) : Rec V :=
  match outputMap with
  | none => outputs
  | some m =>
      outputs.foldl
        (fun mapped kv =>
          match jsGet m kv.1 with
          | some target =>
              if target = "" then jsSet mapped kv.1 kv.2 else jsSet mapped target kv.2
          | none => jsSet mapped kv.1 kv.2)
        []

/-! ## Unfolding lemmas for `recordCall` and `run` -/

theorem Step.recordCall_append {V : Type} (s : Step V) (args : StepCall V) :
    s.recordCall args false = Except.ok { s with calls := s.calls ++ [args] } := rfl

theorem Step.recordCall_update {V : Type} (s : Step V) (args prev : StepCall V)
    (rest : List (StepCall V)) (hc : s.calls = rest ++ [prev]) :
    s.recordCall args true
      = Except.ok { s with calls := rest ++ [jsSpread prev args] } := by
  simp [Step.recordCall, hc, List.getLast?_concat, List.dropLast_concat]

/-- A successful invocation: the result is the merge of the (identity)
preprocessed inputs with the mapped outputs, and the history gains one
record holding the raw inputs and the mapped outputs. -/
theorem Step.run_ok {V E : Type} (s : Step V) (i o : Rec V)
    (compute : Rec V → Except E (Rec V)) (h : compute i = Except.ok o) :
    Step.run s i compute
      = (Except.ok (jsSpread i (s.mapOutputs o)),
         { s with calls := s.calls ++
             [[("inputs", CallField.obj i),
               ("outputs", CallField.obj (s.mapOutputs o))]] }) := by
  have h' : compute (s.preprocess i) = Except.ok o := h
  simp only [Step.run, Step.recordCall_append, h',
    Step.recordCall_update ({ s with calls := s.calls ++ [[("inputs", CallField.obj i)]] })
      _ _ s.calls rfl]
  rfl

/-- A failed invocation: the delegated failure is propagated and the
history is left with a dangling inputs-only record. -/
theorem Step.run_error {V E : Type} (s : Step V) (i : Rec V) (e : E)
    (compute : Rec V → Except E (Rec V)) (h : compute i = Except.error e) :
    Step.run s i compute
      = (Except.error (StepErr.external e),
         { s with calls := s.calls ++ [[("inputs", CallField.obj i)]] }) := by
  have h' : compute (s.preprocess i) = Except.error e := h
  simp only [Step.run, Step.recordCall_append, h']

/-! ## Iterated invocation -/

/-- Run the step once per element of `invs`; the delegated computation of
each invocation succeeds with the paired output record. -/
def runSequence {V : Type} (st : Step V) (invs : List (Rec V × Rec V)) : Step V :=
  invs.foldl (fun s iv => (Step.run (E := Unit) s iv.1 (fun _ => Except.ok iv.2)).2) st

/-- `mapOutputs` reads only the `outputMap` field. -/
theorem Step.mapOutputs_congr {V : Type} (s s' : Step V) (o : Rec V)
    (h : s.outputMap = s'.outputMap) : s.mapOutputs o = s'.mapOutputs o := by
  unfold Step.mapOutputs
  rw [h]

theorem runSequence_calls {V : Type} (st : Step V) (invs : List (Rec V × Rec V)) :
    (runSequence st invs).calls
      = st.calls ++ invs.map
          (fun iv => [("inputs", CallField.obj iv.1),
                      ("outputs", CallField.obj (st.mapOutputs iv.2))])
    ∧ (runSequence st invs).outputMap = st.outputMap := by
  induction invs generalizing st with
  | nil => simp [runSequence]
  | cons iv rest ih =>
      have hstep :
          runSequence st (iv :: rest)
            = runSequence
                { st with calls := st.calls ++
                    [[("inputs", CallField.obj iv.1),
                      ("outputs", CallField.obj (st.mapOutputs iv.2))]] } rest := by
        unfold runSequence
        rw [List.foldl_cons,
          Step.run_ok st iv.1 iv.2 (fun _ => Except.ok iv.2) rfl]
      obtain ⟨ih1, ih2⟩ := ih
        ({ st with calls := st.calls ++
            [[("inputs", CallField.obj iv.1),
              ("outputs", CallField.obj (st.mapOutputs iv.2))]] })
      constructor
      · rw [hstep, ih1]
        simp [Step.mapOutputs]
      · rw [hstep, ih2]

/-! ## The `serialize()` method call as a state transformer -/

/-- The `serialize()` call on an instance: its body performs only reads
(the guard, the index read of `calls`, the object literal), so translated
statement by statement it yields the result together with the untouched
receiver. -/
def Step.serializeCall {V : Type} (st : Step V) (meta : Rec (SerField V)) :
    Rec (SerField V) × Step V :=
  (st.serialize meta, st)

theorem nodup_recKeys_mapOutputs {V : Type} (st : Step V) (o : Rec V)
    (ho : (recKeys o).Nodup) : (recKeys (st.mapOutputs o)).Nodup := by
  match hm : st.outputMap with
  | none =>
      unfold Step.mapOutputs
      rw [hm]
      exact ho
  | some m =>
      rw [mapOutputs_eq_writeAll st m o hm]
      exact nodup_recKeys_writeAll _ _ _ List.nodup_nil

theorem mapOutputs_none {V : Type} (st : Step V) (o : Rec V)
    (hm : st.outputMap = none) : st.mapOutputs o = o := by
  unfold Step.mapOutputs
  rw [hm]

/-! ## The claims -/

/-- C1: for every step and every successful invocation, `run` returns the
shallow merge of the effective input record and the mapped output record:
a key of the mapped outputs keeps the output's value in the result, a key
only in the inputs keeps the input's value, the result's key set is the
union of the two key sets (so every input field the step received is
present), and for a step with no output map the result is the shallow
merge of the effective inputs and the raw delegated outputs. -/
theorem C1_run_returns_merge {V E : Type} (st : Step V) (i o : Rec V)
    (compute : Rec V → Except E (Rec V)) (hok : compute i = Except.ok o)
    (ho : (recKeys o).Nodup) :
    (Step.run st i compute).1 = Except.ok (jsSpread i (st.mapOutputs o))
    ∧ (∀ k v, jsGet (st.mapOutputs o) k = some v →
        jsGet (jsSpread i (st.mapOutputs o)) k = some v)
    ∧ (∀ k, jsGet (st.mapOutputs o) k = none →
        jsGet (jsSpread i (st.mapOutputs o)) k = jsGet i k)
    ∧ (∀ k, k ∈ recKeys (jsSpread i (st.mapOutputs o)) ↔
        k ∈ recKeys i ∨ k ∈ recKeys (st.mapOutputs o))
    ∧ (st.outputMap = none →
        (Step.run st i compute).1 = Except.ok (jsSpread i o)) := by
  refine ⟨?_, ?_, ?_, ?_, ?_⟩
  · rw [Step.run_ok st i o compute hok]
  · intro k v hv
    exact jsGet_jsSpread_of_some _ _ _ _ (nodup_recKeys_mapOutputs st o ho) hv
  · intro k hk
    exact jsGet_jsSpread_of_none _ _ _ hk
  · intro k
    exact mem_recKeys_jsSpread _ _ _
  · intro hm
    rw [Step.run_ok st i o compute hok, mapOutputs_none st o hm]

/-- C1 witness: the spec's scenario — step "greet" with no output map,
input {name: "Ada"}, delegated output {greeting: "Hello, Ada"}. -/
theorem C1_run_returns_merge_witness :
    (Step.run (V := String) (E := Unit) ⟨"greet", none, none, none, []⟩
        [("name", "Ada")] (fun _ => Except.ok [("greeting", "Hello, Ada")])).1
      = Except.ok [("name", "Ada"), ("greeting", "Hello, Ada")] :=
  (C1_run_returns_merge ⟨"greet", none, none, none, []⟩ [("name", "Ada")]
      [("greeting", "Hello, Ada")] (fun _ => Except.ok [("greeting", "Hello, Ada")])
      rfl (by decide)).2.2.2.2 rfl

/-- C2 counterexample: with output map {a: ""} and delegated output
{a: 1}, the source keeps the original key `a` (the declared target name
"" is falsy, so `if (this.outputMap[key])` takes the else branch), while
the claim's reference definition writes the value under the declared
target name "". -/
theorem C2_counterexample :
    Step.mapOutputs (V := Nat) ⟨"s", some [("a", "")], none, none, []⟩ [("a", 1)]
      ≠ mapOutputsSpec (some [("a", "")]) [("a", 1)] := by decide

/-- C2 (amended): `mapOutputs` equals the reference definition amended so
that a declared target name takes effect only when it is non-empty; and
for a step with singleton output map {a: x} (x non-empty), when the
delegated output record is well-formed, contains key a, and no other
output key collides with x, the mapped output contains x bound to a's
value, does not contain a (unless x = a), and every key other than a and
x passes through unchanged. -/
theorem C2_mapOutputs_reference {V : Type} (stm : Step V) (o : Rec V)
    (x : String) (v : V)
    (hm : stm.outputMap = some [("a", x)])
    (hx : x ≠ "") (hxa : x = "a" ∨ x ∉ recKeys o)
    (hno : (recKeys o).Nodup) (hin : jsGet o "a" = some v) :
    (∀ (st' : Step V) (o' : Rec V),
        st'.mapOutputs o' = mapOutputsSpecAmended st'.outputMap o')
    ∧ jsGet (stm.mapOutputs o) x = some v
    ∧ (x ≠ "a" → jsGet (stm.mapOutputs o) "a" = none)
    ∧ (∀ k, k ≠ "a" → k ≠ x → jsGet (stm.mapOutputs o) k = jsGet o k) := by
  have htgt : ∀ kv : String × V,
      (if jsTruthyStr (jsGet [("a", x)] kv.1) then (jsGet [("a", x)] kv.1).getD "" else kv.1)
        = if kv.1 = "a" then x else kv.1 := by
    intro kv
    by_cases h : kv.1 = "a"
    · simp [jsGet, h, jsTruthyStr, hx]
    · simp [jsGet, h, Ne.symm h, jsTruthyStr]
  have hwa : stm.mapOutputs o
      = writeAll (fun kv => if kv.1 = "a" then x else kv.1) o [] := by
    rw [mapOutputs_eq_writeAll stm [("a", x)] o hm]
    unfold writeAll
    exact List.foldl_ext _ _ _ (fun acc kv _ => by simp only [htgt])
  refine ⟨?_, ?_, ?_, ?_⟩
  · intro st' o'
    match hmm : st'.outputMap with
    | none =>
        rw [mapOutputs_none st' o' hmm]
        unfold mapOutputsSpecAmended
        rfl
    | some m =>
        unfold Step.mapOutputs mapOutputsSpecAmended
        rw [hmm]
        refine List.foldl_ext _ _ _ (fun acc kv _ => ?_)
        match hg : jsGet m kv.1 with
        | none => simp [jsTruthyStr, hg]
        | some t =>
            by_cases ht : t = "" <;> simp [jsTruthyStr, hg, ht]
  · rw [hwa]
    refine jsGet_writeAll_unique _ _ _ _ "a" _ ?_ hin hno
    intro kv hkv
    show (if kv.1 = "a" then x else kv.1) = x ↔ kv.1 = "a"
    constructor
    · intro hk
      by_cases h : kv.1 = "a"
      · exact h
      · rw [if_neg h] at hk
        rcases hxa with hxa | hxa
        · exact absurd (hk.trans hxa) h
        · exact absurd (hk ▸ List.mem_map_of_mem Prod.fst hkv) hxa
    · intro hk
      rw [if_pos hk]
  · intro hxna
    rw [hwa]
    rw [show (none : Option V) = jsGet ([] : Rec V) "a" from rfl]
    refine jsGet_writeAll_not_hit _ _ _ _ ?_
    intro kv hkv
    by_cases h : kv.1 = "a" <;> simp [h, hxna]
  · intro k hka hkx
    rw [hwa]
    match hk : jsGet o k with
    | some w =>
        refine jsGet_writeAll_unique _ _ _ _ k _ ?_ hk hno
        intro kv hkv
        by_cases h : kv.1 = "a"
        · simp [h, Ne.symm hka, Ne.symm hkx]
        · simp [h]
    | none =>
        rw [show (none : Option V) = jsGet ([] : Rec V) k from rfl]
        refine jsGet_writeAll_not_hit _ _ _ _ ?_
        intro kv hkv
        have hkm : kv.1 ≠ k := by
          intro hh
          exact absurd (hh ▸ List.mem_map_of_mem Prod.fst hkv)
            ((jsGet_eq_none_iff o k).mp hk)
        by_cases h : kv.1 = "a" <;> simp [h, Ne.symm hkx, hkm]

/-- C2 witness: output map {a: "x"}, delegated outputs {a: "v1", b: "v2"}
— the mapped record binds x to a's value. -/
theorem C2_mapOutputs_reference_witness :
    jsGet (Step.mapOutputs (V := String) ⟨"s", some [("a", "x")], none, none, []⟩
      [("a", "v1"), ("b", "v2")]) "x" = some "v1" :=
  (C2_mapOutputs_reference ⟨"s", some [("a", "x")], none, none, []⟩
      [("a", "v1"), ("b", "v2")] "x" "v1" rfl (by decide) (Or.inr (by decide))
      (by decide) (by decide)).2.1

/-- C3: at the claim's failing input — a fresh step with zero recorded
calls — `serialize` does not return an empty structure: the guard
`if (!this.calls)` tests the array itself, which is always truthy, so the
result is {call: undefined, ...metadata}.  After one recorded call the
result does contain that call's final inputs-plus-outputs record together
with the step-specific metadata, as the claim states. -/
theorem C3_serialize_zero_calls :
    Step.serialize (V := Nat) ⟨"s", none, none, none, []⟩ [("m", SerField.raw 7)]
      = [("call", SerField.undef), ("m", SerField.raw 7)]
    ∧ Step.serialize (V := Nat) ⟨"s", none, none, none, []⟩ [("m", SerField.raw 7)]
        ≠ []
    ∧ Step.serialize (V := Nat)
        ⟨"s", none, none, none,
          [[("inputs", CallField.obj [("a", 1)]),
            ("outputs", CallField.obj [("b", 2)])]]⟩
        [("m", SerField.raw 7)]
      = [("call", SerField.callRec
            [("inputs", CallField.obj [("a", 1)]),
             ("outputs", CallField.obj [("b", 2)])]),
         ("m", SerField.raw 7)] := by
  refine ⟨by decide, by decide, by decide⟩

/-- C4: starting from a fresh step, after N invocations of `run` that all
succeed, the Call History holds exactly N records, the i-th holding
`inputs` = the raw input record of invocation i and `outputs` = the
mapped output record of invocation i. -/
theorem C4_call_history_after_success {V : Type} (st : Step V)
    (invs : List (Rec V × Rec V)) (hc : st.calls = []) :
    (runSequence st invs).calls
      = invs.map (fun iv =>
          [("inputs", CallField.obj iv.1),
           ("outputs", CallField.obj (st.mapOutputs iv.2))])
    ∧ (runSequence st invs).calls.length = invs.length := by
  have h := (runSequence_calls st invs).1
  rw [hc] at h
  simp only [List.nil_append] at h
  exact ⟨h, by rw [h, List.length_map]⟩

/-- C4 witness: one successful invocation of the "greet" scenario leaves
one full call record. -/
theorem C4_call_history_after_success_witness :
    (runSequence (V := String) ⟨"greet", none, none, none, []⟩
        [([("name", "Ada")], [("greeting", "Hello, Ada")])]).calls
      = [[("inputs", CallField.obj [("name", "Ada")]),
          ("outputs", CallField.obj [("greeting", "Hello, Ada")])]] :=
  (C4_call_history_after_success ⟨"greet", none, none, none, []⟩
      [([("name", "Ada")], [("greeting", "Hello, Ada")])] rfl).1

/-- C5: when the delegated computation fails, the failure is propagated
to the caller unchanged (as the external branch of the run error sum) and
the Call History has exactly N+1 records: the first N are unchanged and
the last is the dangling record with `inputs` set and `outputs` absent. -/
theorem C5_failed_run_dangling_record {V E : Type} (st : Step V) (i : Rec V)
    (e : E) (compute : Rec V → Except E (Rec V))
    (hf : compute i = Except.error e) :
    (Step.run st i compute).1 = Except.error (StepErr.external e)
    ∧ (Step.run st i compute).2.calls = st.calls ++ [[("inputs", CallField.obj i)]]
    ∧ (Step.run st i compute).2.calls.length = st.calls.length + 1
    ∧ (Step.run st i compute).2.calls.take st.calls.length = st.calls
    ∧ jsGet [("inputs", CallField.obj i)] "inputs" = some (CallField.obj i)
    ∧ jsGet [("inputs", CallField.obj i)] "outputs" = none := by
  rw [Step.run_error st i e compute hf]
  refine ⟨rfl, rfl, by simp, by simp [List.take_left], by simp [jsGet], by simp [jsGet]⟩

/-- C5 witness: a failing computation on a step with one prior call
leaves two records, the last inputs-only. -/
theorem C5_failed_run_dangling_record_witness :
    (Step.run (V := String) ⟨"s", none, none, none,
        [[("inputs", CallField.obj [("a", "1")])]]⟩ [("b", "2")]
        (fun _ => Except.error "boom")).2.calls
      = [[("inputs", CallField.obj [("a", "1")])],
         [("inputs", CallField.obj [("b", "2")])]] :=
  (C5_failed_run_dangling_record
      ⟨"s", none, none, none, [[("inputs", CallField.obj [("a", "1")])]]⟩
      [("b", "2")] "boom" (fun _ => Except.error "boom") rfl).2.1

/-- C6: update-mode `recordCall` on an empty Call History throws the
invariant-violation error immediately — it is the `Except.error` branch,
never a silent `Except.ok`, and no mutated state is produced, so the
history stays empty. -/
theorem C6_update_empty_history_fails {V : Type} (st : Step V)
    (args : StepCall V) (hc : st.calls = []) :
    st.recordCall args true
      = Except.error "Cannot update last call, calls length is 0"
    ∧ ∀ st' : Step V, st.recordCall args true ≠ Except.ok st' := by
  have h : st.recordCall args true
      = Except.error "Cannot update last call, calls length is 0" := by
    simp [Step.recordCall, hc]
  refine ⟨h, fun st' hh => ?_⟩
  rw [h] at hh
  exact Except.noConfusion hh

/-- C6 witness: a fresh step with empty history. -/
theorem C6_update_empty_history_fails_witness :
    Step.recordCall (V := Nat) ⟨"s", none, none, none, []⟩
        [("outputs", CallField.obj [("a", 1)])] true
      = Except.error "Cannot update last call, calls length is 0" :=
  (C6_update_empty_history_fails ⟨"s", none, none, none, []⟩
      [("outputs", CallField.obj [("a", 1)])] rfl).1

/-- C7: the Call History is append-only: append-mode `recordCall` adds
exactly one record at the end and leaves the existing records in place;
update mode on a non-empty history keeps the length and replaces only the
last record with the shallow merge of the previous last record and the
given partial fields, where a given field overwrites an existing field of
the same name and an absent field keeps its previous value; nothing is
truncated or reordered. -/
theorem C7_history_append_only {V : Type} (st : Step V) (args : StepCall V) :
    (st.recordCall args false = Except.ok { st with calls := st.calls ++ [args] })
    ∧ (∀ rest prev, st.calls = rest ++ [prev] →
        st.recordCall args true
          = Except.ok { st with calls := rest ++ [jsSpread prev args] })
    ∧ (∀ (prev : StepCall V) (k : String) (fv : CallField V),
        (recKeys args).Nodup →
        (jsGet args k = some fv → jsGet (jsSpread prev args) k = some fv)
        ∧ (jsGet args k = none → jsGet (jsSpread prev args) k = jsGet prev k)) := by
  refine ⟨Step.recordCall_append st args, ?_, ?_⟩
  · intro rest prev hc
    exact Step.recordCall_update st args prev rest hc
  · intro prev k fv hnd
    exact ⟨fun h => jsGet_jsSpread_of_some _ _ _ _ hnd h,
           fun h => jsGet_jsSpread_of_none _ _ _ h⟩

/-- C7 witness: an update patches the single record in place, and a
patched field overwrites the previous value of the same name. -/
theorem C7_history_append_only_witness :
    (Step.recordCall (V := Nat)
        ⟨"s", none, none, none, [[("inputs", CallField.obj [("a", 1)])]]⟩
        [("outputs", CallField.obj [("b", 2)])] true
      = Except.ok ⟨"s", none, none, none,
          [[("inputs", CallField.obj [("a", 1)]),
            ("outputs", CallField.obj [("b", 2)])]]⟩)
    ∧ jsGet (jsSpread [("inputs", CallField.obj (V := Nat) [("a", 1)])]
        [("inputs", CallField.obj [("c", 3)])]) "inputs"
      = some (CallField.obj [("c", 3)]) := by
  constructor
  · exact (C7_history_append_only
      ⟨"s", none, none, none, [[("inputs", CallField.obj [("a", 1)])]]⟩
      [("outputs", CallField.obj [("b", 2)])]).2.1 [] _ rfl
  · exact ((C7_history_append_only (V := Nat) ⟨"s", none, none, none, []⟩
      [("inputs", CallField.obj [("c", 3)])]).2.2
      [("inputs", CallField.obj [("a", 1)])] "inputs" (CallField.obj [("c", 3)])
      (by decide)).1 (by decide)

/-- C8: attached schemas have no effect on `run`: with the same name,
output map and history but arbitrary (different) schemas, `run` yields
the same result, the same Call History, and the same error behaviour
for every computation outcome; `preprocess` returns the raw input record
unchanged and `postprocess` merges without consulting any schema. -/
theorem C8_schemas_have_no_effect {V E : Type} (name : String)
    (om : Option (Rec String)) (sIn sOut sIn' sOut' : Option (Schema V))
    (calls : List (StepCall V)) (i : Rec V)
    (compute : Rec V → Except E (Rec V)) :
    (Step.run ⟨name, om, sIn, sOut, calls⟩ i compute).1
      = (Step.run ⟨name, om, sIn', sOut', calls⟩ i compute).1
    ∧ (Step.run ⟨name, om, sIn, sOut, calls⟩ i compute).2.calls
      = (Step.run ⟨name, om, sIn', sOut', calls⟩ i compute).2.calls
    ∧ (∀ st : Step V, st.preprocess i = i)
    ∧ (∀ (st : Step V) (inp out : Rec V),
        st.postprocess inp out = jsSpread inp out) := by
  match he : compute i with
  | Except.ok o =>
      rw [Step.run_ok _ i o compute he, Step.run_ok _ i o compute he]
      exact ⟨by simp [Step.mapOutputs], by simp [Step.mapOutputs],
             fun _ => rfl, fun _ _ _ => rfl⟩
  | Except.error e =>
      rw [Step.run_error _ i e compute he, Step.run_error _ i e compute he]
      exact ⟨rfl, rfl, fun _ => rfl, fun _ _ _ => rfl⟩

/-- C9: the schema configuration calls return the step itself with only
the corresponding schema field replaced (fluent configuration: name,
output map, history and the other schema are untouched), and calling the
same setter twice leaves only the second schema active. -/
theorem C9_fluent_configuration {V : Type} (st : Step V) (s s1 s2 : Schema V) :
    (st.inputs s).inputsSchema = some s
    ∧ (st.inputs s).name = st.name
    ∧ (st.inputs s).outputMap = st.outputMap
    ∧ (st.inputs s).outputsSchema = st.outputsSchema
    ∧ (st.inputs s).calls = st.calls
    ∧ (st.inputs s1).inputs s2 = st.inputs s2
    ∧ (st.outputs s).outputsSchema = some s
    ∧ (st.outputs s).name = st.name
    ∧ (st.outputs s).outputMap = st.outputMap
    ∧ (st.outputs s).inputsSchema = st.inputsSchema
    ∧ (st.outputs s).calls = st.calls
    ∧ (st.outputs s1).outputs s2 = st.outputs s2 :=
  ⟨rfl, rfl, rfl, rfl, rfl, rfl, rfl, rfl, rfl, rfl, rfl, rfl⟩

/-- C10: `serialize` is read-only — its body performs no writes, so the
instance after the call is exactly the instance before it: the history,
name, output map and both schemas are unchanged, and the first component
is the serialized snapshot. -/
theorem C10_serialize_read_only {V : Type} (st : Step V)
    (meta : Rec (SerField V)) :
    (st.serializeCall meta).2 = st
    ∧ (st.serializeCall meta).2.calls = st.calls
    ∧ (st.serializeCall meta).2.name = st.name
    ∧ (st.serializeCall meta).2.outputMap = st.outputMap
    ∧ (st.serializeCall meta).2.inputsSchema = st.inputsSchema
    ∧ (st.serializeCall meta).2.outputsSchema = st.outputsSchema
    ∧ (st.serializeCall meta).1 = st.serialize meta :=
  ⟨rfl, rfl, rfl, rfl, rfl, rfl, rfl⟩
